import Mathlib

/-!
Verification of `jaraco.apt` (`jaraco/apt.py`): the apt-output parser
`parse_new_packages` and the install/remove transaction manager
`dependency_context`, shallowly embedded in Lean.

The parser is embedded over `List Char`, mirroring the two Python regexes:

* `re.search(r'^The following NEW packages will be installed:[\r\n]+(.*?)[\r\n]\w', out, re.DOTALL | re.MULTILINE)`
  is embedded as `scan`: a leftmost search over positions at which `^`
  matches (start of string, or immediately after a \n), matching the literal
  header, then a greedy run of CR/LF characters (with backtracking, longest
  first), then a lazy capture (shortest first), terminated by one CR/LF
  followed by a word character.
* `re.findall(r'[\w{}\.+-]+', block)` is embedded as `findTokens`: the
  maximal runs of token-class characters, in order.

Word characters are modelled as ASCII alphanumerics plus underscore.

The transaction manager is embedded as a function from an environment
(install-command result, remove-command result, and the enclosed block,
modelled as a function from the yielded list contents to the list contents
at cleanup time plus a raised flag) to the trace of externally visible
events (lock acquire/release, install, yield, remove) and an outcome.
-/

namespace JaracoApt

/-- ASCII model of the regex class `\w`. -/
def isWordChar (c : Char) : Bool := c.isAlphanum || c = '_'

/-- The character class `[\r\n]`. -/
def isCRLF (c : Char) : Bool := c = '\r' || c = '\n'

/-- The character class `[\w\x7b\x7d\.+-]` used to tokenize package names. -/
def isTokenChar (c : Char) : Bool :=
  isWordChar c || c = '{' || c = '}' || c = '.' || c = '+' || c = '-'

/-- The literal header line the parser searches for. -/
def header : List Char := "The following NEW packages will be installed:".toList

/-- The trailing automatic-package marker `\x7ba\x7d`. -/
def marker : List Char := "{a}".toList

/-- Does the list start with a word character? (The `\w` after the final `[\r\n]`.) -/
def startsWord : List Char → Bool
  | [] => false
  | b :: _ => isWordChar b

/-- Lazy capture `(.*?)[\r\n]\w`: the shortest prefix of `l` that is followed
by one CR/LF character and then a word character; `none` when no such
split of `l` exists. -/
def findCaptureEnd : List Char → Option (List Char)
  | [] => none
  | a :: r =>
    if isCRLF a && startsWord r then some []
    else (findCaptureEnd r).map (a :: ·)

/-- Length of the maximal run of CR/LF characters at the front (the greedy
first pass of `[\r\n]+`). -/
def crlfRun (l : List Char) : Nat := (l.takeWhile isCRLF).length

/-- Backtracking of the greedy `[\r\n]+` followed by the lazy capture:
try consuming `j` newline characters for `j = n, n-1, ..., 1`, and for each
take the lazy capture of the remainder; first success wins. -/
def tryNewlines : Nat → List Char → Option (List Char)
  | 0, _ => none
  | j + 1, l =>
    match findCaptureEnd (l.drop (j + 1)) with
    | some c => some c
    | none => tryNewlines j l

/-- Attempt the full pattern at the current position: literal header, then
`[\r\n]+(.*?)[\r\n]\w`; returns the capture group on success. -/
def matchHere (l : List Char) : Option (List Char) :=
  if header.isPrefixOf l then
    let l' := l.drop header.length
    tryNewlines (crlfRun l') l'
  else none

/-- `re.search` with `MULTILINE`: try the pattern at every position at which
`^` matches (start of string, or just after a \n), leftmost match first. -/
def scan : Bool → List Char → Option (List Char)
  | atLS, [] => if atLS then matchHere [] else none
  | atLS, a :: r =>
    match (if atLS then matchHere (a :: r) else none) with
    | some c => some c
    | none => scan (a == '\n') r

/-- Accumulator pass of `findTokens`: `acc` holds the (reversed) current run
of token characters. -/
def tokensAux : List Char → List Char → List (List Char)
  | [], acc => if acc = [] then [] else [acc.reverse]
  | c :: rest, acc =>
    if isTokenChar c then tokensAux rest (c :: acc)
    else if acc = [] then tokensAux rest []
    else acc.reverse :: tokensAux rest []

/-- `re.findall` of the token class: maximal runs of token characters, in order. -/
def findTokens (l : List Char) : List (List Char) := tokensAux l []

/-- A package name possibly with other attributes (`PackageName` in the source:
a string carrying an `automatic` flag). -/
structure PackageName where
  name : List Char
  automatic : Bool
deriving DecidableEq, Repr

/-- `PackageName.from_apt`: detect a trailing `\x7ba\x7d` marker; if present strip
the last three characters and set `automatic`. -/
def PackageName.from_apt (s : List Char) : PackageName :=
  if marker.isSuffixOf s then ⟨s.take (s.length - 3), true⟩ else ⟨s, false⟩

/-- `parse_new_packages`: search for the NEW-packages block; if absent return
`[]`; otherwise tokenize the captured block, build `PackageName`s, and filter
out automatic packages unless `include_automatic`. -/
def parse_new_packages (apt_output : List Char) (include_automatic : Bool) :
    List PackageName :=
  match scan true apt_output with
  | none => []
  | some block =>
    let raw_names := findTokens block
    let all_packages := raw_names.map PackageName.from_apt
    if include_automatic then all_packages
    else all_packages.filter (fun pack => !pack.automatic)

/-- Package names carried by a list of parsed packages (the strings that are
passed to the external commands). -/
def pkgNames (l : List PackageName) : List String := l.map (fun p => String.mk p.name)

/-- Line-start occurrence check used to state claims about the parser: does
the literal header occur at a position where `^` matches? The boolean
argument tracks whether the current position is a line start. -/
def hasHeaderOcc : Bool → List Char → Bool
  | _, [] => false
  | atLS, a :: r => (atLS && header.isPrefixOf (a :: r)) || hasHeaderOcc (a == '\n') r

/-- Is there an adjacent pair of a CR/LF character followed by a word
character anywhere in the list (i.e. a later line beginning with a word
character)? -/
def hasPair : List Char → Bool
  | [] => false
  | a :: r => (isCRLF a && startsWord r) || hasPair r

/-- Does some line-start occurrence of the header have, after its end, an
adjacent CR/LF-then-word-character pair (the pair the pattern needs to
terminate the captured block)? -/
def badOcc : Bool → List Char → Bool
  | _, [] => false
  | atLS, a :: r =>
    (atLS && header.isPrefixOf (a :: r) && hasPair ((a :: r).drop header.length))
      || badOcc (a == '\n') r

/-! ## The transaction manager `dependency_context`

Externally visible actions are modelled as a trace of events. The enclosed
`with`-block is modelled by `Env.blockRun`: given the contents of the list at
yield time, it returns the contents of that (mutable) list at cleanup time and
whether the block raised. The install command is `Env.installOutput` (`none`
models `CalledProcessError`), the remove command `Env.removeOk`. Lock
acquisition is assumed to succeed (a lock timeout aborts before anything
modelled here happens). Logging calls are not modelled. -/

/-- Externally visible events of one transaction, in order. -/
inductive Event where
  | acquire : Event
  | install : List String → Event
  | release : Event
  | yieldList : List String → Event
  | remove : List String → Event
deriving DecidableEq, Repr

/-- How the transaction ends: normally, or by an exception reaching the
caller. `nameError` models the `NameError` raised by `lock.release()` in the
`finally` block when the local `lock` was never assigned. -/
inductive Outcome where
  | ok : Outcome
  | installError : Outcome
  | removeError : Outcome
  | blockError : Outcome
  | nameError : Outcome
deriving DecidableEq, Repr

/-- Environment of one run: external command results and the enclosed block. -/
structure Env where
  installOutput : Option String
  removeOk : Bool
  blockRun : List String → List String × Bool

/-- The packages `parse_new_packages` reports for the install output of `env`
(empty when the install command fails). -/
def parsedPackages (env : Env) (aggressively_remove : Bool) : List String :=
  match env.installOutput with
  | none => []
  | some out => pkgNames (parse_new_packages out.toList aggressively_remove)

/-- `dependency_context`, embedded as a trace function. Mirrors the source:
`installed_packages = []`; then, when `package_names` is non-empty, acquire
the lock, run the install command (a failure is logged and re-raised; the
`finally` block then sees an empty list, so it neither removes nor releases),
parse its output, release the lock early when nothing new was installed, and
yield; the `finally` block reads the current contents of the yielded list,
and when it is non-empty runs the remove command and then `lock.release()`
(which raises `NameError` when no lock was ever created). -/
def dependency_context : List String → Bool → Env → List Event × Outcome
  | [], _, env =>
    let res := env.blockRun []
    if res.1 = [] then
      ([Event.yieldList []], if res.2 then Outcome.blockError else Outcome.ok)
    else if env.removeOk then
      ([Event.yieldList [], Event.remove res.1], Outcome.nameError)
    else
      ([Event.yieldList [], Event.remove res.1], Outcome.removeError)
  | p :: ps, aggressively_remove, env =>
    match env.installOutput with
    | none => ([Event.acquire, Event.install (p :: ps)], Outcome.installError)
    | some out =>
      let installed := pkgNames (parse_new_packages out.toList aggressively_remove)
      let pre := [Event.acquire, Event.install (p :: ps)]
        ++ (if installed = [] then [Event.release] else [])
        ++ [Event.yieldList installed]
      let res := env.blockRun installed
      if res.1 = [] then
        (pre, if res.2 then Outcome.blockError else Outcome.ok)
      else if env.removeOk then
        (pre ++ [Event.remove res.1, Event.release],
          if res.2 then Outcome.blockError else Outcome.ok)
      else
        (pre ++ [Event.remove res.1], Outcome.removeError)

/-- The sample apt output of C4 (also the body of `test_parse_new_packages`). -/
def sampleText : String :=
  "Stuff\n  More stuff\nThe following NEW packages will be installed:\n  abc{a} def{a} ghi jk lmno pqwerty{a}\n  xyz\n  g++\nEven more stuff"

/-! ## Helper lemmas about the parser -/

theorem matchHere_nil : matchHere [] = none := by decide

theorem matchHere_of_not_pre (l : List Char) (h : header.isPrefixOf l = false) :
    matchHere l = none := by
  simp [matchHere, h]

theorem scan_eq_none_of_no_occ (l : List Char) :
    ∀ b : Bool, hasHeaderOcc b l = false → scan b l = none := by
  induction l with
  | nil =>
    intro b _
    cases b <;> simp [scan, matchHere_nil]
  | cons a r ih =>
    intro b h
    simp only [hasHeaderOcc, Bool.or_eq_false_iff, Bool.and_eq_false_iff] at h
    obtain ⟨h1, h2⟩ := h
    cases b with
    | false => simpa [scan] using ih _ h2
    | true =>
      rcases h1 with h1 | h1
      · exact absurd h1 (by simp)
      · simp [scan, matchHere_of_not_pre _ h1]
        exact ih _ h2

theorem hasPair_of_findCaptureEnd (l : List Char) (c : List Char)
    (h : findCaptureEnd l = some c) : hasPair l = true := by
  induction l generalizing c with
  | nil => simp [findCaptureEnd] at h
  | cons a r ih =>
    by_cases hp : (isCRLF a && startsWord r) = true
    · simp [hasPair, hp]
    · cases hc : findCaptureEnd r with
      | none =>
        simp only [findCaptureEnd] at h
        rw [if_neg hp, hc] at h
        simp at h
      | some c' => simp [hasPair, ih _ hc]

theorem hasPair_drop (k : Nat) (l : List Char) (h : hasPair l = false) :
    hasPair (l.drop k) = false := by
  induction k generalizing l with
  | zero => simpa using h
  | succ k ih =>
    cases l with
    | nil => simp [hasPair]
    | cons a r =>
      simp only [hasPair, Bool.or_eq_false_iff] at h
      exact ih r h.2

theorem tryNewlines_eq_none (l : List Char) (h : hasPair l = false) :
    ∀ n : Nat, tryNewlines n l = none := by
  intro n
  induction n with
  | zero => rfl
  | succ n ih =>
    have hfc : findCaptureEnd (l.drop (n + 1)) = none := by
      cases hc : findCaptureEnd (l.drop (n + 1)) with
      | none => rfl
      | some c =>
        have := hasPair_of_findCaptureEnd _ _ hc
        rw [hasPair_drop (n + 1) l h] at this
        exact absurd this (by simp)
    simp [tryNewlines, hfc, ih]

theorem matchHere_of_noPair (l : List Char)
    (h : hasPair (l.drop header.length) = false) : matchHere l = none := by
  by_cases hp : header.isPrefixOf l = true
  · simp [matchHere, hp, tryNewlines_eq_none _ h]
  · exact matchHere_of_not_pre l (Bool.eq_false_iff.mpr hp)

theorem scan_eq_none_of_no_badOcc (l : List Char) :
    ∀ b : Bool, badOcc b l = false → scan b l = none := by
  induction l with
  | nil =>
    intro b _
    cases b <;> simp [scan, matchHere_nil]
  | cons a r ih =>
    intro b h
    simp only [badOcc, Bool.or_eq_false_iff, Bool.and_eq_false_iff] at h
    obtain ⟨h1, h2⟩ := h
    cases b with
    | false => simpa [scan] using ih _ h2
    | true =>
      rcases h1 with (h1 | h1) | h1
      · exact absurd h1 (by simp)
      · simp [scan, matchHere_of_not_pre _ h1]
        exact ih _ h2
      · simp [scan, matchHere_of_noPair _ h1]
        exact ih _ h2

/-! ## Helper lemmas about the transaction manager -/

/-- Trace of a run with an empty package list. -/
theorem dc_nil_trace (a : Bool) (env : Env) :
    (dependency_context [] a env).1 =
      [Event.yieldList []] ++
        (if (env.blockRun []).1 = [] then [] else [Event.remove (env.blockRun []).1]) := by
  by_cases h : (env.blockRun []).1 = []
  · simp [dependency_context, h]
  · by_cases hrm : env.removeOk <;> simp [dependency_context, h, hrm]

/-- A failing install: the lock is acquired and never released. -/
theorem dc_none_trace (p : String) (ps : List String) (a : Bool) (env : Env)
    (hio : env.installOutput = none) :
    dependency_context (p :: ps) a env =
      ([Event.acquire, Event.install (p :: ps)], Outcome.installError) := by
  simp [dependency_context, hio]

/-- Trace of a run whose install command succeeds with output `out`. -/
theorem dc_some_trace (p : String) (ps : List String) (a : Bool) (env : Env) (out : String)
    (hio : env.installOutput = some out) :
    (dependency_context (p :: ps) a env).1 =
      [Event.acquire, Event.install (p :: ps)]
        ++ (if pkgNames (parse_new_packages out.toList a) = [] then [Event.release] else [])
        ++ [Event.yieldList (pkgNames (parse_new_packages out.toList a))]
        ++ (if (env.blockRun (pkgNames (parse_new_packages out.toList a))).1 = [] then []
            else Event.remove (env.blockRun (pkgNames (parse_new_packages out.toList a))).1 ::
              (if env.removeOk then [Event.release] else [])) := by
  simp only [dependency_context, hio]
  generalize pkgNames (parse_new_packages out.toList a) = inst
  by_cases h : (env.blockRun inst).1 = []
  · simp [h]
  · by_cases hrm : env.removeOk <;> simp [h, hrm]

/-! ## The claims -/

/-- C1: the claim asserts that when the install command exits non-zero the
error is re-raised with no remove invoked and the lock released. On the code,
the error is re-raised and no remove is invoked, but the lock is NOT
released: `lock.release()` in the `finally` block is guarded by
`if installed_packages:`, which is empty on this path. Demonstration at a
concrete failing input: the trace is exactly acquire-then-install, with no
release and no remove, and the install error propagates. -/
theorem install_failure_lock_leaked :
    dependency_context ["python-dev"] false ⟨none, true, fun l => (l, false)⟩ =
      ([Event.acquire, Event.install ["python-dev"]], Outcome.installError) ∧
    Event.release ∉ (dependency_context ["python-dev"] false ⟨none, true, fun l => (l, false)⟩).1 ∧
    Event.remove ["python-dev"] ∉
      (dependency_context ["python-dev"] false ⟨none, true, fun l => (l, false)⟩).1 :=
  ⟨by decide, by decide, by decide⟩

/-- C2: the claim asserts that when the remove command exits non-zero during
cleanup, the error propagates after the lock is released. On the code the
error propagates, but the lock is NOT released: `lock.release()` comes after
the `check_call` that raises. Demonstration at a concrete failing input: the
trace ends at the remove event, contains no release event, and the remove
error propagates. -/
theorem remove_failure_lock_leaked :
    dependency_context ["ghi"] false ⟨some sampleText, false, fun l => (l, false)⟩ =
      ([Event.acquire, Event.install ["ghi"],
        Event.yieldList ["ghi", "jk", "lmno", "xyz", "g++"],
        Event.remove ["ghi", "jk", "lmno", "xyz", "g++"]], Outcome.removeError) ∧
    Event.release ∉
      (dependency_context ["ghi"] false ⟨some sampleText, false, fun l => (l, false)⟩).1 :=
  ⟨by decide, by decide⟩

/-- C3 counterexample: a block that appends a pre-existing package name
("vim") to the yielded list makes the remove command receive "vim", which is
not among the packages reported as newly installed, refuting the claimed
subset invariant for arbitrary enclosed blocks. -/
theorem remove_superset_counterexample :
    Event.remove ["ghi", "jk", "lmno", "xyz", "g++", "vim"] ∈
      (dependency_context ["ghi"] false
        ⟨some sampleText, true, fun l => (l ++ ["vim"], false)⟩).1 ∧
    "vim" ∉ parsedPackages ⟨some sampleText, true, fun l => (l ++ ["vim"], false)⟩ false :=
  ⟨by decide, by decide⟩

/-- C3 amended: whenever the enclosed block only removes elements from the
yielded list (never adds any), every package list passed to the remove
command is a subset of the packages reported as newly installed by
`parse_new_packages` for the transaction's install output. -/
theorem remove_subset_of_parsed (pkgs : List String) (a : Bool) (env : Env)
    (hblk : ∀ l, (env.blockRun l).1 ⊆ l) :
    ∀ l, Event.remove l ∈ (dependency_context pkgs a env).1 → l ⊆ parsedPackages env a := by
  intro l hl
  cases pkgs with
  | nil =>
    rw [dc_nil_trace] at hl
    have h0 : (env.blockRun []).1 = [] := List.subset_nil.mp (hblk [])
    simp [h0] at hl
  | cons p ps =>
    cases hio : env.installOutput with
    | none =>
      rw [dc_none_trace p ps a env hio] at hl
      simp at hl
    | some out =>
      rw [dc_some_trace p ps a env out hio] at hl
      have hpp : parsedPackages env a = pkgNames (parse_new_packages out.toList a) := by
        simp [parsedPackages, hio]
      rw [hpp]
      generalize pkgNames (parse_new_packages out.toList a) = inst at hl ⊢
      by_cases hi : inst = []
      · subst hi
        by_cases h : (env.blockRun ([] : List String)).1 = [] <;>
          by_cases hrm : env.removeOk <;>
          simp [h, hrm] at hl <;>
          (subst hl; exact hblk _)
      · by_cases h : (env.blockRun inst).1 = [] <;>
          by_cases hrm : env.removeOk <;>
          simp [h, hi, hrm] at hl <;>
          (subst hl; exact hblk _)

/-- C3 amended, witness: with an identity block, the remove command receives
exactly the parsed newly-installed packages, a subset of themselves. -/
theorem remove_subset_of_parsed_witness :
    Event.remove ["ghi", "jk", "lmno", "xyz", "g++"] ∈
      (dependency_context ["ghi"] false ⟨some sampleText, false, fun l => (l, false)⟩).1 ∧
    ["ghi", "jk", "lmno", "xyz", "g++"] ⊆
      parsedPackages ⟨some sampleText, false, fun l => (l, false)⟩ false :=
  ⟨by decide,
    remove_subset_of_parsed ["ghi"] false ⟨some sampleText, false, fun l => (l, false)⟩
      (fun _ _ ha => ha) ["ghi", "jk", "lmno", "xyz", "g++"] (by decide)⟩

/-- C4: on the seven-line sample text, `parse_new_packages` returns exactly
ghi, jk, lmno, xyz, g++ without `include_automatic`, and abc, def, ghi, jk,
lmno, pqwerty, xyz, g++ with it. -/
theorem parse_sample_output :
    pkgNames (parse_new_packages sampleText.toList false) = ["ghi", "jk", "lmno", "xyz", "g++"] ∧
    pkgNames (parse_new_packages sampleText.toList true) =
      ["abc", "def", "ghi", "jk", "lmno", "pqwerty", "xyz", "g++"] := by
  constructor <;> decide

/-- C5: any input with no line-start occurrence of the header line yields an
empty result from `parse_new_packages`, for either flag value, without error. -/
theorem parse_no_header_empty (text : List Char) (b : Bool)
    (h : hasHeaderOcc true text = false) : parse_new_packages text b = [] := by
  simp [parse_new_packages, scan_eq_none_of_no_occ text true h]

/-- C5 witness at a concrete header-free input. -/
theorem parse_no_header_empty_witness :
    hasHeaderOcc true "hello world".toList = false ∧
    parse_new_packages "hello world".toList true = [] :=
  ⟨by decide, parse_no_header_empty "hello world".toList true (by decide)⟩

/-- C6: for every captured package block, each token carrying the trailing
automatic marker appears in the `include_automatic` result with the
three-character marker stripped and flagged automatic, and is absent from the
filtered result; each unmarked token appears unchanged in both; order is the
token order (the full result is the token map, the filtered result a sublist
of it). -/
theorem parse_marker_tokens (text block : List Char)
    (hs : scan true text = some block) :
    parse_new_packages text true = (findTokens block).map PackageName.from_apt ∧
    parse_new_packages text false =
      ((findTokens block).map PackageName.from_apt).filter (fun p => !p.automatic) ∧
    (∀ t ∈ findTokens block, marker.isSuffixOf t = true →
      PackageName.from_apt t = ⟨t.take (t.length - 3), true⟩ ∧
      PackageName.from_apt t ∈ parse_new_packages text true ∧
      PackageName.from_apt t ∉ parse_new_packages text false) ∧
    (∀ t ∈ findTokens block, marker.isSuffixOf t = false →
      PackageName.from_apt t = ⟨t, false⟩ ∧
      PackageName.from_apt t ∈ parse_new_packages text true ∧
      PackageName.from_apt t ∈ parse_new_packages text false) ∧
    (parse_new_packages text false).Sublist (parse_new_packages text true) := by
  have e1 : parse_new_packages text true = (findTokens block).map PackageName.from_apt := by
    simp [parse_new_packages, hs]
  have e2 : parse_new_packages text false =
      ((findTokens block).map PackageName.from_apt).filter (fun p => !p.automatic) := by
    simp [parse_new_packages, hs]
  refine ⟨e1, e2, ?_, ?_, ?_⟩
  · intro t ht hm
    have hfa : PackageName.from_apt t = ⟨t.take (t.length - 3), true⟩ := by
      simp [PackageName.from_apt, hm]
    refine ⟨hfa, ?_, ?_⟩
    · rw [e1]; exact List.mem_map_of_mem _ ht
    · rw [e2]
      intro hmem
      have := (List.mem_filter.mp hmem).2
      rw [hfa] at this
      simp at this
  · intro t ht hm
    have hfa : PackageName.from_apt t = ⟨t, false⟩ := by
      simp [PackageName.from_apt, hm]
    refine ⟨hfa, ?_, ?_⟩
    · rw [e1]; exact List.mem_map_of_mem _ ht
    · rw [e2]
      refine List.mem_filter.mpr ⟨List.mem_map_of_mem _ ht, ?_⟩
      simp [hfa]
  · rw [e1, e2]; exact List.filter_sublist _

/-- C6 witness on the sample text's captured block. -/
theorem parse_marker_tokens_witness :
    scan true sampleText.toList =
      some "  abc{a} def{a} ghi jk lmno pqwerty{a}\n  xyz\n  g++".toList ∧
    parse_new_packages sampleText.toList true =
      (findTokens "  abc{a} def{a} ghi jk lmno pqwerty{a}\n  xyz\n  g++".toList).map
        PackageName.from_apt :=
  ⟨by decide, (parse_marker_tokens sampleText.toList
    "  abc{a} def{a} ghi jk lmno pqwerty{a}\n  xyz\n  g++".toList (by decide)).1⟩

/-- C7 counterexample: with an empty package list, a block that appends
"vim" to the yielded (initially empty) list makes the cleanup invoke the
remove command — refuting "invokes no remove command" for arbitrary blocks —
and the subsequent `lock.release()` raises `NameError` because no lock was
ever created. -/
theorem empty_packages_remove_counterexample :
    dependency_context [] false ⟨none, true, fun _ => (["vim"], false)⟩ =
      ([Event.yieldList [], Event.remove ["vim"]], Outcome.nameError) :=
  by decide

/-- C7 amended: with an empty package list, no lock is acquired and no
install command is invoked, and an empty list is yielded; no remove command
is invoked provided the enclosed block leaves the yielded list empty. -/
theorem empty_packages_behavior (a : Bool) (env : Env) :
    Event.acquire ∉ (dependency_context [] a env).1 ∧
    (∀ l, Event.install l ∉ (dependency_context [] a env).1) ∧
    Event.yieldList [] ∈ (dependency_context [] a env).1 ∧
    ((env.blockRun []).1 = [] → ∀ l, Event.remove l ∉ (dependency_context [] a env).1) := by
  by_cases h : (env.blockRun []).1 = []
  · simp [dependency_context, h]
  · by_cases hrm : env.removeOk <;> simp [dependency_context, h, hrm]

/-- C7 amended, witness at a non-mutating block. -/
theorem empty_packages_behavior_witness :
    Event.acquire ∉ (dependency_context [] false ⟨none, true, fun _ => ([], false)⟩).1 ∧
    Event.install ["x"] ∉ (dependency_context [] false ⟨none, true, fun _ => ([], false)⟩).1 ∧
    Event.yieldList [] ∈ (dependency_context [] false ⟨none, true, fun _ => ([], false)⟩).1 ∧
    Event.remove ["vim"] ∉ (dependency_context [] false ⟨none, true, fun _ => ([], false)⟩).1 :=
  ⟨(empty_packages_behavior false _).1, (empty_packages_behavior false _).2.1 ["x"],
    (empty_packages_behavior false _).2.2.1,
    (empty_packages_behavior false _).2.2.2 rfl ["vim"]⟩

/-- C8: cleanup observes the current contents of the yielded list, not a
snapshot: whenever a list `y` was yielded, if the block leaves the list
empty no remove command is invoked, and any remove command invoked receives
exactly the block's final list contents. -/
theorem cleanup_observes_current_list (pkgs : List String) (a : Bool) (env : Env)
    (y : List String)
    (hy : Event.yieldList y ∈ (dependency_context pkgs a env).1) :
    ((env.blockRun y).1 = [] → ∀ l, Event.remove l ∉ (dependency_context pkgs a env).1) ∧
    (∀ l, Event.remove l ∈ (dependency_context pkgs a env).1 → l = (env.blockRun y).1) := by
  cases pkgs with
  | nil =>
    rw [dc_nil_trace] at hy
    have hy0 : y = [] := by
      by_cases h : (env.blockRun []).1 = [] <;> simp [h] at hy <;> simp_all
    subst hy0
    rw [dc_nil_trace]
    by_cases h : (env.blockRun []).1 = [] <;> simp [h]
  | cons p ps =>
    cases hio : env.installOutput with
    | none =>
      rw [show (dependency_context (p :: ps) a env).1 = [Event.acquire, Event.install (p :: ps)]
        from congrArg Prod.fst (dc_none_trace p ps a env hio)] at hy
      simp at hy
    | some out =>
      rw [dc_some_trace p ps a env out hio] at hy
      rw [dc_some_trace p ps a env out hio]
      have hy0 : y = pkgNames (parse_new_packages out.toList a) := by
        by_cases h : (env.blockRun (pkgNames (parse_new_packages out.toList a))).1 = [] <;>
          by_cases hi : pkgNames (parse_new_packages out.toList a) = [] <;>
          by_cases hrm : env.removeOk <;>
          simp [h, hi, hrm] at hy <;> simp_all
      rw [hy0]
      by_cases h : (env.blockRun (pkgNames (parse_new_packages out.toList a))).1 = [] <;>
        by_cases hi : pkgNames (parse_new_packages out.toList a) = [] <;>
        by_cases hrm : env.removeOk <;>
        simp [h, hi, hrm]

/-- C8 witness: a block that empties the yielded list suppresses the remove
command. -/
theorem cleanup_observes_current_list_witness :
    Event.yieldList ["ghi", "jk", "lmno", "xyz", "g++"] ∈
      (dependency_context ["ghi"] false ⟨some sampleText, true, fun _ => ([], false)⟩).1 ∧
    Event.remove ["vim"] ∉
      (dependency_context ["ghi"] false ⟨some sampleText, true, fun _ => ([], false)⟩).1 :=
  ⟨by decide,
    (cleanup_observes_current_list ["ghi"] false ⟨some sampleText, true, fun _ => ([], false)⟩
      ["ghi", "jk", "lmno", "xyz", "g++"] (by decide)).1 rfl ["vim"]⟩

/-- C9 counterexample: install succeeds but nothing new is installed, so the
lock is released before the yield; a block that then adds "x" to the yielded
list makes the cleanup invoke the remove command AND call `lock.release()` a
second time — refuting "invokes no remove command and does not attempt to
release the lock a second time" for arbitrary blocks. -/
theorem empty_install_double_release_counterexample :
    dependency_context ["foo"] false
        ⟨some "no new packages here", true, fun _ => (["x"], false)⟩ =
      ([Event.acquire, Event.install ["foo"], Event.release, Event.yieldList [],
        Event.remove ["x"], Event.release], Outcome.ok) :=
  by decide

/-- C9 amended: when the install command succeeds but `parse_new_packages`
reports nothing newly installed, the lock is released immediately before the
yield, and — provided the enclosed block leaves the yielded list empty — no
remove command is invoked and the lock is not released a second time: the
trace is exactly acquire, install, release, yield. -/
theorem empty_install_behavior (p : String) (ps : List String) (a : Bool) (env : Env)
    (out : String)
    (hio : env.installOutput = some out)
    (hparse : pkgNames (parse_new_packages out.toList a) = [])
    (hblk : (env.blockRun []).1 = []) :
    dependency_context (p :: ps) a env =
      ([Event.acquire, Event.install (p :: ps), Event.release, Event.yieldList []],
        if (env.blockRun []).2 then Outcome.blockError else Outcome.ok) := by
  simp only [dependency_context, hio]
  rw [hparse]
  simp [hblk]

/-- C9 amended, witness. -/
theorem empty_install_behavior_witness :
    dependency_context ["foo"] false ⟨some "nothing new", true, fun _ => ([], false)⟩ =
      ([Event.acquire, Event.install ["foo"], Event.release, Event.yieldList []],
        Outcome.ok) := by
  simpa using empty_install_behavior "foo" [] false
    ⟨some "nothing new", true, fun _ => ([], false)⟩ "nothing new" rfl (by decide) rfl

/-- C10: when the header occurs (at a line start) but no later line begins
with a word character — no CR/LF character followed by a word character after
any header occurrence — the terminating `[\r\n]\w` of the pattern cannot
match, so `parse_new_packages` returns an empty sequence even though package
names may follow the header. -/
theorem parse_unterminated_block_empty (text : List Char) (b : Bool)
    (_hocc : hasHeaderOcc true text = true)
    (h : badOcc true text = false) : parse_new_packages text b = [] := by
  simp [parse_new_packages, scan_eq_none_of_no_badOcc text true h]

/-- C10 witness: a package block that is the last text of the output. -/
theorem parse_unterminated_block_empty_witness :
    hasHeaderOcc true "The following NEW packages will be installed:\n  abc\n  def".toList
      = true ∧
    badOcc true "The following NEW packages will be installed:\n  abc\n  def".toList = false ∧
    parse_new_packages "The following NEW packages will be installed:\n  abc\n  def".toList
      true = [] :=
  ⟨by decide, by decide,
    parse_unterminated_block_empty _ true (by decide) (by decide)⟩

end JaracoApt
